import Mathlib

/-!
Verification of the TTF-to-epdfont converter (reference implementation
src/reference/ttf_to_epdfont.py) against its natural-language specification.

The Python source is shallowly embedded:
  * Python ints are modelled by Int (code points, metrics, offsets may be
    negative in principle), byte values and lengths by Nat;
  * Python floats that carry exact configuration values (width_scale) are
    modelled by Rat; int(...) truncation toward zero is modelled on Rat;
  * Python str is modelled by List Char; str.split(sep) is List.splitOn;
  * struct.pack is modelled by range-checked byte encoders returning
    Option (List Nat): Python's struct module raises struct.error when a
    value does not fit the requested field, so a failing pack is none;
  * the rasterization collaborator (FreeType) is an external oracle of type
    Int -> Option RenderedGlyph (load_glyph: first face that covers the
    code point, or None).
-/

/-! ## Python helpers: range, int(s, 0), str.strip -/

/-- Python range(a, b + 1): the inclusive list of integers from a to b. -/
def intRange (a b : Int) : List Int :=
  (List.range (b + 1 - a).toNat).map (fun (n : Nat) => a + (n : Int))

theorem intRange_eq (a b : Int) :
    intRange a b = if a ≤ b then a :: intRange (a + 1) b else [] := by
  by_cases h : a ≤ b
  · rw [if_pos h]
    unfold intRange
    have hn : (b + 1 - a).toNat = (b + 1 - (a + 1)).toNat + 1 := by omega
    rw [hn, List.range_succ_eq_map, List.map_cons, List.map_map]
    refine List.cons_eq_cons.2 ⟨by simp, List.map_congr_left ?_⟩
    intro i _
    show a + ((Nat.succ i : Nat) : Int) = a + 1 + (i : Int)
    push_cast
    ring
  · rw [if_neg h]
    unfold intRange
    have hn : (b + 1 - a).toNat = 0 := by omega
    rw [hn]
    simp

/-- Python whitespace characters recognized by str.strip() (ASCII). -/
def isPySpace (c : Char) : Bool :=
  c = ' ' || c = '\t' || c = '\n' || c = '\r' || c = '\x0b' || c = '\x0c'

/-- str.strip(): remove leading and trailing whitespace. -/
def stripChars (l : List Char) : List Char :=
  ((l.dropWhile isPySpace).reverse.dropWhile isPySpace).reverse

/-- Value of a decimal digit character. -/
def decVal (c : Char) : Option Nat :=
  if '0' ≤ c ∧ c ≤ '9' then some (c.toNat - '0'.toNat) else none

/-- Value of a hexadecimal digit character. -/
def hexVal (c : Char) : Option Nat :=
  if '0' ≤ c ∧ c ≤ '9' then some (c.toNat - '0'.toNat)
  else if 'a' ≤ c ∧ c ≤ 'f' then some (c.toNat - 'a'.toNat + 10)
  else if 'A' ≤ c ∧ c ≤ 'F' then some (c.toNat - 'A'.toNat + 10)
  else none

/-- Value of an octal digit character. -/
def octVal (c : Char) : Option Nat :=
  if '0' ≤ c ∧ c ≤ '7' then some (c.toNat - '0'.toNat) else none

/-- Value of a binary digit character. -/
def binVal (c : Char) : Option Nat :=
  if c = '0' ∨ c = '1' then some (c.toNat - '0'.toNat) else none

/-- Digit-sequence parser shared by all bases of Python int(s, 0): digits with
single underscores allowed between digits (lastDigit tracks whether an
underscore is currently permitted, seen whether at least one digit appeared). -/
def parseDigitsAux (base : Nat) (dval : Char → Option Nat) :
    List Char → Nat → Bool → Bool → Option Nat
  | [], acc, lastDigit, seen => if lastDigit ∧ seen then some acc else none
  | c :: rest, acc, lastDigit, seen =>
    if c = '_' then
      if lastDigit then parseDigitsAux base dval rest acc false seen else none
    else
      match dval c with
      | some d => parseDigitsAux base dval rest (acc * base + d) true true
      | none => none

/-- Magnitude part of Python int(s, 0) after sign removal: a 0x/0o/0b prefixed
literal, the zero literal, or a decimal literal (which, in base 0, must not
have a leading zero unless its value is zero). ASCII digits only. -/
def pyIntMag : List Char → Option Nat
  | [] => none
  | ['0'] => some 0
  | '0' :: c :: rest =>
    if c = 'x' ∨ c = 'X' then parseDigitsAux 16 hexVal rest 0 true false
    else if c = 'o' ∨ c = 'O' then parseDigitsAux 8 octVal rest 0 true false
    else if c = 'b' ∨ c = 'B' then parseDigitsAux 2 binVal rest 0 true false
    else
      match parseDigitsAux 10 decVal ('0' :: c :: rest) 0 false false with
      | some v => if v = 0 then some 0 else none
      | none => none
  | l => parseDigitsAux 10 decVal l 0 false false

/-- Python int(s, 0) on an ASCII string: strip whitespace, optional sign,
then a decimal / hexadecimal / octal / binary magnitude. none models a
ValueError being raised. -/
def pyInt0 (chars : List Char) : Option Int :=
  match stripChars chars with
  | '+' :: rest => (pyIntMag rest).map (fun n => (n : Int))
  | '-' :: rest => (pyIntMag rest).map (fun n => -(n : Int))
  | t => (pyIntMag t).map (fun n => (n : Int))

/-! ## Interval Resolver: additional intervals (source lines 209-215) -/

/-- One iteration of the additional-intervals loop: split the argument on
commas; exactly two parts parse both with int(_, 0) and append the pair,
any other number of parts is silently skipped.  none models a ValueError
raised by int() on an unparseable part. -/
def parseAdditionalInterval (intervals : List (Int × Int)) (interval : List Char) :
    Option (List (Int × Int)) :=
  match interval.splitOn ',' with
  | [a, b] =>
    match pyInt0 a, pyInt0 b with
    | some s, some e => some (intervals ++ [(s, e)])
    | _, _ => none
  | _ => some intervals

/-- The whole additional-intervals loop. -/
def addAdditionalIntervals : List (Int × Int) → List (List Char) → Option (List (Int × Int))
  | acc, [] => some acc
  | acc, s :: rest =>
    match parseAdditionalInterval acc s with
    | some acc2 => addAdditionalIntervals acc2 rest
    | none => none

/-! ## Interval Resolver: sort and merge (source lines 220-227) -/

/-- Lexicographic order on pairs, the order Python sorted() uses on tuples. -/
def lexLe (a b : Int × Int) : Prop :=
  a.1 < b.1 ∨ (a.1 = b.1 ∧ a.2 ≤ b.2)

instance : DecidableRel lexLe := fun a b => by
  unfold lexLe
  exact inferInstance

/-- One iteration of the merge loop: if the next range starts at or before
the end of the last merged range plus one, extend the last merged range,
else append the next range. -/
def mergeStep (acc : List (Int × Int)) (r : Int × Int) : List (Int × Int) :=
  match acc.getLast? with
  | some last =>
    if r.1 ≤ last.2 + 1 then acc.dropLast ++ [(last.1, max last.2 r.2)] else acc ++ [r]
  | none => acc ++ [r]

/-- Sort-and-merge of the Interval Resolver: sort the candidate ranges
(Python sorted on tuples, i.e. lexicographic; insertion sort produces the
same list because lexLe is total and antisymmetric) and fold the merge loop. -/
def merge_intervals (l : List (Int × Int)) : List (Int × Int) :=
  (List.insertionSort lexLe l).foldl mergeStep []

/-- Recursive reformulation of the merge loop that carries the currently open
merged range instead of rewriting the last element of the accumulator. -/
def mergeRuns : Int × Int → List (Int × Int) → List (Int × Int)
  | cur, [] => [cur]
  | cur, r :: rest =>
    if r.1 ≤ cur.2 + 1 then mergeRuns (cur.1, max cur.2 r.2) rest
    else cur :: mergeRuns r rest

/-- Merge of an already sorted list, via mergeRuns. -/
def mergeSorted : List (Int × Int) → List (Int × Int)
  | [] => []
  | x :: rest => mergeRuns x rest

theorem foldl_mergeStep_eq (rest : List (Int × Int)) :
    ∀ (acc : List (Int × Int)) (cur : Int × Int),
      rest.foldl mergeStep (acc ++ [cur]) = acc ++ mergeRuns cur rest := by
  induction rest with
  | nil => intro acc cur; simp [mergeRuns]
  | cons r t ih =>
    intro acc cur
    by_cases h : r.1 ≤ cur.2 + 1
    · have hs : mergeStep (acc ++ [cur]) r = acc ++ [(cur.1, max cur.2 r.2)] := by
        simp [mergeStep, List.getLast?_concat, List.dropLast_concat, h]
      simp only [List.foldl_cons, hs, ih, mergeRuns, if_pos h]
    · have hs : mergeStep (acc ++ [cur]) r = (acc ++ [cur]) ++ [r] := by
        simp [mergeStep, List.getLast?_concat, h]
      simp only [List.foldl_cons, hs, ih, mergeRuns, if_neg h]
      simp

theorem merge_intervals_eq (l : List (Int × Int)) :
    merge_intervals l = mergeSorted (List.insertionSort lexLe l) := by
  unfold merge_intervals mergeSorted
  cases h : List.insertionSort lexLe l with
  | nil => simp
  | cons x rest =>
    have h0 : mergeStep [] x = [] ++ [x] := by simp [mergeStep]
    simp only [List.foldl_cons, h0, foldl_mergeStep_eq]
    simp

/-- Shape invariant of merged output: every range starts at or after lo,
every range has start ≤ end, and consecutive ranges are separated by a gap
of at least one code point (next start ≥ previous end + 2). -/
def MergedChain : Int → List (Int × Int) → Prop
  | _, [] => True
  | lo, p :: rest => lo ≤ p.1 ∧ p.1 ≤ p.2 ∧ MergedChain (p.2 + 2) rest

theorem mergedChain_mono {lo lo2 : Int} {l : List (Int × Int)}
    (h : lo2 ≤ lo) (hl : MergedChain lo l) : MergedChain lo2 l := by
  cases l with
  | nil => trivial
  | cons p rest =>
    obtain ⟨h1, h2, h3⟩ := hl
    exact ⟨le_trans h h1, h2, h3⟩

theorem mergeRuns_mergedChain :
    ∀ (rest : List (Int × Int)) (cur : Int × Int), cur.1 ≤ cur.2 →
      (∀ p ∈ rest, p.1 ≤ p.2) → MergedChain cur.1 (mergeRuns cur rest) := by
  intro rest
  induction rest with
  | nil => intro cur hc _; exact ⟨le_refl _, hc, trivial⟩
  | cons r t ih =>
    intro cur hc hmem
    by_cases h : r.1 ≤ cur.2 + 1
    · have h2 : (cur.1, max cur.2 r.2).1 ≤ (cur.1, max cur.2 r.2).2 :=
        le_trans hc (le_max_left _ _)
      have := ih (cur.1, max cur.2 r.2) h2 (fun p hp => hmem p (List.mem_cons_of_mem _ hp))
      simpa [mergeRuns, if_pos h] using this
    · have hr : r.1 ≤ r.2 := hmem r (List.mem_cons_self _ _)
      have hrec := ih r hr (fun p hp => hmem p (List.mem_cons_of_mem _ hp))
      have hgap : cur.2 + 2 ≤ r.1 := by omega
      refine ?_
      simp only [mergeRuns, if_neg h]
      exact ⟨le_refl _, hc, mergedChain_mono hgap hrec⟩

theorem mergedChain_bounds {lo : Int} {l : List (Int × Int)} (h : MergedChain lo l) :
    ∀ p ∈ l, lo ≤ p.1 ∧ p.1 ≤ p.2 := by
  induction l generalizing lo with
  | nil => intro p hp; cases hp
  | cons q rest ih =>
    obtain ⟨h1, h2, h3⟩ := h
    intro p hp
    rcases List.mem_cons.1 hp with rfl | hp2
    · exact ⟨h1, h2⟩
    · have := ih h3 p hp2
      exact ⟨by omega, this.2⟩

theorem mergedChain_pairwise_gap {lo : Int} {l : List (Int × Int)} (h : MergedChain lo l) :
    l.Pairwise (fun a b => a.2 + 1 < b.1) := by
  induction l generalizing lo with
  | nil => exact List.Pairwise.nil
  | cons q rest ih =>
    obtain ⟨h1, h2, h3⟩ := h
    refine List.pairwise_cons.2 ⟨?_, ih h3⟩
    intro b hb
    have := (mergedChain_bounds h3 b hb).1
    omega

theorem mergedChain_sorted {lo : Int} {l : List (Int × Int)} (h : MergedChain lo l) :
    List.Sorted lexLe l := by
  induction l generalizing lo with
  | nil => exact List.Pairwise.nil
  | cons q rest ih =>
    obtain ⟨h1, h2, h3⟩ := h
    refine List.sorted_cons.2 ⟨?_, ih h3⟩
    intro b hb
    have := (mergedChain_bounds h3 b hb).1
    exact Or.inl (by omega)

theorem mergeRuns_of_gap :
    ∀ (rest : List (Int × Int)) (cur : Int × Int),
      List.Chain' (fun a b => a.2 + 1 < b.1) (cur :: rest) →
      mergeRuns cur rest = cur :: rest := by
  intro rest
  induction rest with
  | nil => intro cur _; rfl
  | cons r t ih =>
    intro cur hch
    obtain ⟨h1, h2⟩ := List.chain'_cons.1 hch
    have hn : ¬ r.1 ≤ cur.2 + 1 := by omega
    simp only [mergeRuns, if_neg hn]
    rw [ih r h2]

/-! ## Interval Resolver: validation (source lines 229-240) -/

/-- The inner validation loop over the code points of one merged range:
start is the opening of the currently open sub-range; an unresolvable code
point closes it (if non-empty) and reopens just after; at the end of the
range the open sub-range is closed if non-empty. -/
def validateScan (resolvable : Int → Bool) : Int → Int → List Int → List (Int × Int)
  | start, iEnd, [] => if start ≤ iEnd then [(start, iEnd)] else []
  | start, iEnd, cp :: rest =>
    match resolvable cp with
    | true => validateScan resolvable start iEnd rest
    | false =>
      (if start < cp then [(start, cp - 1)] else []) ++
        validateScan resolvable (cp + 1) iEnd rest

/-- Interval validation: split every merged range at the code points the
rasterization collaborator cannot resolve. -/
def validated_intervals (resolvable : Int → Bool) (merged : List (Int × Int)) :
    List (Int × Int) :=
  merged.flatMap (fun p => validateScan resolvable p.1 p.2 (intRange p.1 p.2))

theorem validateScan_sound (resolvable : Int → Bool) (iEnd : Int) :
    ∀ (cps : List Int) (start pos : Int), cps = intRange pos iEnd →
      (∀ c : Int, start ≤ c → c < pos → resolvable c = true) →
      ∀ p ∈ validateScan resolvable start iEnd cps,
        ∀ c : Int, p.1 ≤ c → c ≤ p.2 → resolvable c = true := by
  intro cps
  induction cps with
  | nil =>
    intro start pos heq hinv p hp c hc1 hc2
    have hpos : ¬ pos ≤ iEnd := by
      intro hle
      rw [intRange_eq, if_pos hle] at heq
      exact List.noConfusion heq
    simp only [validateScan] at hp
    by_cases hs : start ≤ iEnd
    · rw [if_pos hs] at hp
      have hp2 := List.mem_singleton.1 hp
      subst hp2
      have ha : start ≤ c := hc1
      have hb : c ≤ iEnd := hc2
      exact hinv c ha (by omega)
    · rw [if_neg hs] at hp
      exact absurd hp (List.not_mem_nil p)
  | cons cp rest ih =>
    intro start pos heq hinv p hp c hc1 hc2
    rw [intRange_eq] at heq
    by_cases hle : pos ≤ iEnd
    · rw [if_pos hle] at heq
      injection heq with hcp hrest
      subst hcp
      cases hres : resolvable cp with
      | true =>
        simp only [validateScan, hres] at hp
        refine ih start (cp + 1) hrest ?_ p hp c hc1 hc2
        intro d hd1 hd2
        by_cases hdp : d < cp
        · exact hinv d hd1 hdp
        · have hdd : d = cp := by omega
          rw [hdd]; exact hres
      | false =>
        simp only [validateScan, hres, List.mem_append] at hp
        rcases hp with hp1 | hp2
        · by_cases hsp : start < cp
          · rw [if_pos hsp] at hp1
            have hp3 := List.mem_singleton.1 hp1
            subst hp3
            have ha : start ≤ c := hc1
            have hb : c ≤ cp - 1 := hc2
            exact hinv c ha (by omega)
          · rw [if_neg hsp] at hp1
            exact absurd hp1 (List.not_mem_nil p)
        · refine ih (cp + 1) (cp + 1) hrest ?_ p hp2 c hc1 hc2
          intro d hd1 hd2
          omega
    · rw [if_neg hle] at heq
      exact List.noConfusion heq

theorem validateScan_all_unresolvable (resolvable : Int → Bool) (iEnd : Int) :
    ∀ (cps : List Int) (pos : Int), cps = intRange pos iEnd →
      (∀ c : Int, pos ≤ c → c ≤ iEnd → resolvable c = false) →
      validateScan resolvable pos iEnd cps = [] := by
  intro cps
  induction cps with
  | nil =>
    intro pos heq _
    have hpos : ¬ pos ≤ iEnd := by
      intro hle
      rw [intRange_eq, if_pos hle] at heq
      exact List.noConfusion heq
    simp [validateScan, hpos]
  | cons cp rest ih =>
    intro pos heq hun
    rw [intRange_eq] at heq
    by_cases hle : pos ≤ iEnd
    · rw [if_pos hle] at heq
      injection heq with hcp hrest
      subst hcp
      have hres : resolvable cp = false := hun cp (le_refl _) hle
      have hns : ¬ cp < cp := lt_irrefl _
      simp only [validateScan, hres, if_neg hns, List.nil_append]
      exact ih (cp + 1) hrest (fun c h1 h2 => hun c (by omega) h2)
    · rw [if_neg hle] at heq
      exact List.noConfusion heq

/-! ## Metrics Adjuster (source lines 24-25, 316-322) -/

/-- norm_floor: 26.6 fixed point to whole pixels, rounding down
(int(math.floor(val / 64))). -/
def norm_floor (val : Int) : Int := Int.fdiv val 64

/-- Python int() applied to an exact rational value: truncation toward zero
(floor for nonnegative values, ceiling for negative ones). -/
def pyTrunc (q : Rat) : Int := if 0 ≤ q then Int.floor q else Int.ceil q

/-- Adjusted horizontal advance (source lines 318-319):
int(norm_floor(advance.x) * width_scale) + letter_spacing. -/
def adjusted_advance_x (raw : Int) (width_scale : Rat) (letter_spacing : Int) : Int :=
  pyTrunc ((norm_floor raw : Rat) * width_scale) + letter_spacing

/-! ## Bitmap Quantizer / Packer (source lines 256-314) -/

/-- One iteration of the 4-bit greyscale reduction loop (source lines 259-269).
State: (emitted bytes, pending nibble byte). The input pair iv is (index, sample)
as produced by Python enumerate. -/
def pixels4gStep (width : Nat) (st : List Nat × Nat) (iv : Nat × Nat) : List Nat × Nat :=
  let x := if 0 < width then iv.1 % width else 0
  let after :=
    if x % 2 = 0 then (st.1, iv.2 >>> 4)
    else (st.1 ++ [st.2 ||| (iv.2 &&& 0xF0)], 0)
  if 0 < width ∧ x = width - 1 ∧ width % 2 > 0 then (after.1 ++ [after.2], 0) else after

/-- The 4-bit greyscale intermediate buffer built from the 8-bit coverage
buffer: two horizontally adjacent samples per byte, high nibbles kept. -/
def pixels4g (width : Nat) (buffer : List Nat) : List Nat :=
  (buffer.enum.foldl (pixels4gStep width) ([], 0)).1

/-- Row pitch of the 4-bit intermediate buffer (source lines 276, 300). -/
def pitchOf (width : Nat) : Nat := width / 2 + width % 2

/-- One iteration of the 1-bit packing loop (source lines 301-310), at flat
pixel position p = y * width + x. State: (emitted bytes, bit accumulator). -/
def bwStep (width pitch : Nat) (p4 : List Nat) (st : List Nat × Nat) (p : Nat) :
    List Nat × Nat :=
  let x := p % width
  let px0 := st.2 <<< 1
  let px :=
    if 0 < pitch ∧ 0 < p4.length then
      let bm := p4.getD (p / width * pitch + x / 2) 0
      if (x % 2 = 0 ∧ 0 < bm &&& 0xE) ∨ (x % 2 = 1 ∧ 0 < bm &&& 0xE0) then px0 + 1 else px0
    else px0
  if p % 8 = 7 then (st.1 ++ [px], 0) else (st.1, px)

/-- 1-bit packing of a glyph bitmap (source lines 297-314): 8 pixels per byte,
MSB first, across row boundaries, final partial byte left-shifted to fill. -/
def pixelsbw (width rows : Nat) (p4 : List Nat) : List Nat :=
  let pitch := pitchOf width
  let st := (List.range (rows * width)).foldl (bwStep width pitch p4) ([], 0)
  if (width * rows) % 8 ≠ 0 then st.1 ++ [st.2 <<< (8 - (width * rows) % 8)] else st.1

/-- One iteration of the 2-bit packing loop (source lines 277-291). -/
def gbStep (width pitch : Nat) (p4 : List Nat) (st : List Nat × Nat) (p : Nat) :
    List Nat × Nat :=
  let x := p % width
  let px0 := st.2 <<< 2
  let px :=
    if 0 < pitch ∧ 0 < p4.length then
      let bm := (p4.getD (p / width * pitch + x / 2) 0 >>> ((x % 2) * 4)) &&& 0xF
      if 12 ≤ bm then px0 + 3
      else if 8 ≤ bm then px0 + 2
      else if 4 ≤ bm then px0 + 1
      else px0
    else px0
  if p % 4 = 3 then (st.1 ++ [px], 0) else (st.1, px)

/-- 2-bit packing of a glyph bitmap (source lines 272-295): 4 pixels per byte,
MSB first, thresholds 12/8/4, final partial byte left-shifted to fill. -/
def pixels2b (width rows : Nat) (p4 : List Nat) : List Nat :=
  let pitch := pitchOf width
  let st := (List.range (rows * width)).foldl (gbStep width pitch p4) ([], 0)
  if (width * rows) % 4 ≠ 0 then st.1 ++ [st.2 <<< ((4 - (width * rows) % 4) * 2)] else st.1

/-! ## Glyph generation (source lines 244-335) -/

/-- The data the rasterization collaborator returns for a resolvable code
point: bitmap size, 8-bit coverage buffer, 26.6 advance, bearings. -/
structure RenderedGlyph where
  width : Nat
  rows : Nat
  buffer : List Nat
  advance_x_raw : Int
  bitmap_left : Int
  bitmap_top : Int

/-- GlyphProps namedtuple of the source (code_point is carried but not
persisted directly). -/
structure GlyphProps where
  width : Nat
  height : Nat
  advance_x : Int
  left : Int
  top : Int
  data_length : Nat
  data_offset : Nat
  code_point : Int

/-- Packing of one rendered glyph: 4-bit reduction then 1-bit or 2-bit mode. -/
def packGlyph (is_2bit : Bool) (g : RenderedGlyph) : List Nat :=
  let p4 := pixels4g g.width g.buffer
  if is_2bit then pixels2b g.width g.rows p4 else pixelsbw g.width g.rows p4

/-- The glyph generation loop: walks the code points in order, skips
unresolvable ones, packs each bitmap, assigns data_offset from the running
total_size accumulator and advances it by the packed length. -/
def genGlyphs (render : Int → Option RenderedGlyph) (is_2bit : Bool) (width_scale : Rat)
    (letter_spacing baseline_offset : Int) : List Int → Nat → List (GlyphProps × List Nat)
  | [], _ => []
  | cp :: rest, total =>
    match render cp with
    | none => genGlyphs render is_2bit width_scale letter_spacing baseline_offset rest total
    | some g =>
      let packed := packGlyph is_2bit g
      (⟨g.width, g.rows, adjusted_advance_x g.advance_x_raw width_scale letter_spacing,
        g.bitmap_left, g.bitmap_top + baseline_offset, packed.length, total, cp⟩, packed) ::
        genGlyphs render is_2bit width_scale letter_spacing baseline_offset rest
          (total + packed.length)

/-- all_glyphs of one conversion run: glyphs of every code point of every
validated interval, in order, with running data offsets starting at 0. -/
def all_glyphs (render : Int → Option RenderedGlyph) (is_2bit : Bool) (width_scale : Rat)
    (letter_spacing baseline_offset : Int) (validated : List (Int × Int)) :
    List (GlyphProps × List Nat) :=
  genGlyphs render is_2bit width_scale letter_spacing baseline_offset
    (validated.flatMap (fun p => intRange p.1 p.2)) 0

/-! ## Binary Serializer (source lines 362-425)

struct.pack is modelled field by field; every encoder checks the range the
corresponding struct format character enforces and returns none where Python
raises struct.error. -/

def EPDFONT_MAGIC : Int := 0x46445045

def EPDFONT_VERSION : Int := 1

/-- struct format B: unsigned byte, range checked. -/
def packU8 (v : Int) : Option (List Nat) :=
  if 0 ≤ v ∧ v < 256 then some [v.toNat] else none

/-- struct format H (little endian): unsigned 16-bit, range checked. -/
def packU16le (v : Int) : Option (List Nat) :=
  if 0 ≤ v ∧ v < 65536 then some [v.toNat % 256, v.toNat / 256] else none

/-- struct format h (little endian): signed 16-bit, range checked, two's
complement encoding. -/
def packI16le (v : Int) : Option (List Nat) :=
  if -32768 ≤ v ∧ v < 32768 then some [(v % 65536).toNat % 256, (v % 65536).toNat / 256]
  else none

/-- struct format I (little endian): unsigned 32-bit, range checked. -/
def packU32le (v : Int) : Option (List Nat) :=
  if 0 ≤ v ∧ v < 4294967296 then
    some [v.toNat % 256, v.toNat / 256 % 256, v.toNat / 65536 % 256, v.toNat / 16777216 % 256]
  else none

/-- Header size (source line 366). -/
def header_size : Nat := 32

/-- Interval table size: 12 bytes per interval (source line 367). -/
def intervals_size (n : Nat) : Nat := n * 12

/-- Glyph table size: 16 bytes per glyph (source line 368). -/
def glyphs_size (m : Nat) : Nat := m * 16

/-- Offset of the interval table (source line 370). -/
def intervals_offset : Nat := header_size

/-- Offset of the glyph table (source line 371). -/
def glyphs_offset (n : Nat) : Nat := intervals_offset + intervals_size n

/-- Offset of the bitmap blob (source line 372). -/
def bitmap_offset (n m : Nat) : Nat := glyphs_offset n + glyphs_size m

/-- Header bytes (source lines 379-394), struct format <IHBBBBBB5I.
advance_y, ascender and descender are masked with 0xFF by the source before
packing, so those three fields always fit. -/
def epdfontHeader (advance_y ascender descender : Int) (is_2bit : Bool) (n m : Nat) :
    Option (List Nat) :=
  (packU32le EPDFONT_MAGIC).bind fun f1 =>
  (packU16le EPDFONT_VERSION).bind fun f2 =>
  (packU8 (if is_2bit then 1 else 0)).bind fun f3 =>
  (packU8 0).bind fun f4 =>
  (packU8 (advance_y % 256)).bind fun f5 =>
  (packU8 (ascender % 256)).bind fun f6 =>
  (packU8 (descender % 256)).bind fun f7 =>
  (packU8 0).bind fun f8 =>
  (packU32le (n : Int)).bind fun f9 =>
  (packU32le (m : Int)).bind fun f10 =>
  (packU32le (intervals_offset : Int)).bind fun f11 =>
  (packU32le (glyphs_offset n : Int)).bind fun f12 =>
  (packU32le (bitmap_offset n m : Int)).bind fun f13 =>
  some (f1 ++ f2 ++ f3 ++ f4 ++ f5 ++ f6 ++ f7 ++ f8 ++ f9 ++ f10 ++ f11 ++ f12 ++ f13)

/-- Interval table bytes (source lines 398-401): per interval start, end and
the cumulative glyph index offset, struct format <3I each. -/
def intervalTable : List (Int × Int) → Int → Option (List Nat)
  | [], _ => some []
  | (s, e) :: rest, off =>
    (packU32le s).bind fun b1 =>
    (packU32le e).bind fun b2 =>
    (packU32le off).bind fun b3 =>
    (intervalTable rest (off + (e - s + 1))).bind fun bs =>
    some (b1 ++ b2 ++ b3 ++ bs)

/-- One glyph table entry (source lines 404-415), struct format <4B2h2I.
advance_x is packed with format B: unsigned byte, NOT masked first. -/
def glyphEntry (g : GlyphProps) : Option (List Nat) :=
  (packU8 (g.width : Int)).bind fun b1 =>
  (packU8 (g.height : Int)).bind fun b2 =>
  (packU8 g.advance_x).bind fun b3 =>
  (packU8 0).bind fun b4 =>
  (packI16le g.left).bind fun b5 =>
  (packI16le g.top).bind fun b6 =>
  (packU32le (g.data_length : Int)).bind fun b7 =>
  (packU32le (g.data_offset : Int)).bind fun b8 =>
  some (b1 ++ b2 ++ b3 ++ b4 ++ b5 ++ b6 ++ b7 ++ b8)

/-- The glyph table: concatenated entries. -/
def glyphTable : List (GlyphProps × List Nat) → Option (List Nat)
  | [] => some []
  | (g, _) :: rest =>
    (glyphEntry g).bind fun e =>
    (glyphTable rest).bind fun r =>
    some (e ++ r)

/-- write_epdfont (source lines 362-418): header, interval table, glyph
table, then the concatenated bitmap blob.  none models a struct.error being
raised while packing (in which case no complete file is produced). -/
def write_epdfont (intervals : List (Int × Int)) (all_gs : List (GlyphProps × List Nat))
    (advance_y ascender descender : Int) (is_2bit : Bool) : Option (List Nat) :=
  (epdfontHeader advance_y ascender descender is_2bit intervals.length all_gs.length).bind
    fun header =>
  (intervalTable intervals 0).bind fun itab =>
  (glyphTable all_gs).bind fun gtab =>
  some (header ++ itab ++ gtab ++ (all_gs.map Prod.snd).flatten)

/-! ## Serializer length lemmas -/

theorem packU8_some_length {v : Int} {l : List Nat} (h : packU8 v = some l) :
    l.length = 1 := by
  unfold packU8 at h
  split at h
  · simp only [Option.some.injEq] at h
    subst h
    rfl
  · exact Option.noConfusion h

theorem packU16le_some_length {v : Int} {l : List Nat} (h : packU16le v = some l) :
    l.length = 2 := by
  unfold packU16le at h
  split at h
  · simp only [Option.some.injEq] at h
    subst h
    rfl
  · exact Option.noConfusion h

theorem packI16le_some_length {v : Int} {l : List Nat} (h : packI16le v = some l) :
    l.length = 2 := by
  unfold packI16le at h
  split at h
  · simp only [Option.some.injEq] at h
    subst h
    rfl
  · exact Option.noConfusion h

theorem packU32le_some_length {v : Int} {l : List Nat} (h : packU32le v = some l) :
    l.length = 4 := by
  unfold packU32le at h
  split at h
  · simp only [Option.some.injEq] at h
    subst h
    rfl
  · exact Option.noConfusion h

theorem epdfontHeader_some_length {advance_y ascender descender : Int} {is_2bit : Bool}
    {n m : Nat} {l : List Nat}
    (h : epdfontHeader advance_y ascender descender is_2bit n m = some l) :
    l.length = 32 := by
  unfold epdfontHeader at h
  obtain ⟨f1, h1, h⟩ := Option.bind_eq_some.1 h
  obtain ⟨f2, h2, h⟩ := Option.bind_eq_some.1 h
  obtain ⟨f3, h3, h⟩ := Option.bind_eq_some.1 h
  obtain ⟨f4, h4, h⟩ := Option.bind_eq_some.1 h
  obtain ⟨f5, h5, h⟩ := Option.bind_eq_some.1 h
  obtain ⟨f6, h6, h⟩ := Option.bind_eq_some.1 h
  obtain ⟨f7, h7, h⟩ := Option.bind_eq_some.1 h
  obtain ⟨f8, h8, h⟩ := Option.bind_eq_some.1 h
  obtain ⟨f9, h9, h⟩ := Option.bind_eq_some.1 h
  obtain ⟨f10, h10, h⟩ := Option.bind_eq_some.1 h
  obtain ⟨f11, h11, h⟩ := Option.bind_eq_some.1 h
  obtain ⟨f12, h12, h⟩ := Option.bind_eq_some.1 h
  obtain ⟨f13, h13, h⟩ := Option.bind_eq_some.1 h
  have heq := Option.some.inj h
  subst heq
  have l1 := packU32le_some_length h1
  have l2 := packU16le_some_length h2
  have l3 := packU8_some_length h3
  have l4 := packU8_some_length h4
  have l5 := packU8_some_length h5
  have l6 := packU8_some_length h6
  have l7 := packU8_some_length h7
  have l8 := packU8_some_length h8
  have l9 := packU32le_some_length h9
  have l10 := packU32le_some_length h10
  have l11 := packU32le_some_length h11
  have l12 := packU32le_some_length h12
  have l13 := packU32le_some_length h13
  simp only [List.length_append]
  omega

theorem intervalTable_some_length :
    ∀ (l : List (Int × Int)) (off : Int) (bs : List Nat),
      intervalTable l off = some bs → bs.length = 12 * l.length := by
  intro l
  induction l with
  | nil =>
    intro off bs h
    simp only [intervalTable, Option.some.injEq] at h
    subst h
    rfl
  | cons p rest ih =>
    intro off bs h
    obtain ⟨s, e⟩ := p
    simp only [intervalTable, Option.bind_eq_some, Option.some.injEq] at h
    obtain ⟨b1, h1, b2, h2, b3, h3, bs2, h4, heq⟩ := h
    subst heq
    have l1 := packU32le_some_length h1
    have l2 := packU32le_some_length h2
    have l3 := packU32le_some_length h3
    have l4 := ih _ _ h4
    simp only [List.length_append, List.length_cons]
    omega

theorem glyphEntry_some_length {g : GlyphProps} {l : List Nat}
    (h : glyphEntry g = some l) : l.length = 16 := by
  unfold glyphEntry at h
  obtain ⟨b1, h1, h⟩ := Option.bind_eq_some.1 h
  obtain ⟨b2, h2, h⟩ := Option.bind_eq_some.1 h
  obtain ⟨b3, h3, h⟩ := Option.bind_eq_some.1 h
  obtain ⟨b4, h4, h⟩ := Option.bind_eq_some.1 h
  obtain ⟨b5, h5, h⟩ := Option.bind_eq_some.1 h
  obtain ⟨b6, h6, h⟩ := Option.bind_eq_some.1 h
  obtain ⟨b7, h7, h⟩ := Option.bind_eq_some.1 h
  obtain ⟨b8, h8, h⟩ := Option.bind_eq_some.1 h
  have heq := Option.some.inj h
  subst heq
  have l1 := packU8_some_length h1
  have l2 := packU8_some_length h2
  have l3 := packU8_some_length h3
  have l4 := packU8_some_length h4
  have l5 := packI16le_some_length h5
  have l6 := packI16le_some_length h6
  have l7 := packU32le_some_length h7
  have l8 := packU32le_some_length h8
  simp only [List.length_append]
  omega

theorem glyphTable_some_length :
    ∀ (gs : List (GlyphProps × List Nat)) (bs : List Nat),
      glyphTable gs = some bs → bs.length = 16 * gs.length := by
  intro gs
  induction gs with
  | nil =>
    intro bs h
    simp only [glyphTable, Option.some.injEq] at h
    subst h
    rfl
  | cons x rest ih =>
    intro bs h
    obtain ⟨g, packed⟩ := x
    simp only [glyphTable, Option.bind_eq_some, Option.some.injEq] at h
    obtain ⟨e, he, r, hr, heq⟩ := h
    subst heq
    have l1 := glyphEntry_some_length he
    have l2 := ih _ hr
    simp only [List.length_append, List.length_cons]
    omega

/-- Claim C2: for every finalized interval list of n entries and glyph list of
m entries, the serializer computes intervalsOffset = 32,
glyphsOffset = 32 + 12 n, bitmapOffset = 32 + 12 n + 16 m, and the total
number of bytes written equals bitmapOffset plus the sum of all dataLength
values (finalized glyphs carry data_length equal to their packed length). -/
theorem c2_serializer_layout (intervals : List (Int × Int))
    (all_gs : List (GlyphProps × List Nat)) (advance_y ascender descender : Int)
    (is_2bit : Bool) (bs : List Nat)
    (hlen : ∀ gp ∈ all_gs, gp.1.data_length = gp.2.length)
    (hw : write_epdfont intervals all_gs advance_y ascender descender is_2bit = some bs) :
    intervals_offset = 32 ∧
    glyphs_offset intervals.length = 32 + 12 * intervals.length ∧
    bitmap_offset intervals.length all_gs.length
      = 32 + 12 * intervals.length + 16 * all_gs.length ∧
    bs.length = bitmap_offset intervals.length all_gs.length
      + (all_gs.map (fun gp => gp.1.data_length)).sum := by
  refine ⟨rfl, ?_, ?_, ?_⟩
  · unfold glyphs_offset intervals_offset intervals_size header_size
    omega
  · unfold bitmap_offset glyphs_offset intervals_offset intervals_size glyphs_size header_size
    omega
  · simp only [write_epdfont, Option.bind_eq_some, Option.some.injEq] at hw
    obtain ⟨hd, hh, it, hi, gt, hg, heq⟩ := hw
    subst heq
    have lh := epdfontHeader_some_length hh
    have li := intervalTable_some_length _ _ _ hi
    have lg := glyphTable_some_length _ _ hg
    have lb : ((all_gs.map Prod.snd).flatten).length
        = (all_gs.map (fun gp => gp.1.data_length)).sum := by
      rw [List.length_flatten, List.map_map]
      exact congrArg List.sum
        (List.map_congr_left (fun gp hgp => (hlen gp hgp).symm))
    simp only [List.length_append]
    unfold bitmap_offset glyphs_offset intervals_offset intervals_size glyphs_size header_size
    omega

/-- Witness for C2 at a concrete one-interval, one-glyph input. -/
theorem c2_witness :
    intervals_offset = 32 ∧
    glyphs_offset [((65 : Int), 66)].length = 32 + 12 * [((65 : Int), 66)].length ∧
    bitmap_offset [((65 : Int), 66)].length
        [((⟨3, 5, 200, -1, 2, 1, 0, 65⟩ : GlyphProps), [170])].length
      = 32 + 12 * [((65 : Int), 66)].length
        + 16 * [((⟨3, 5, 200, -1, 2, 1, 0, 65⟩ : GlyphProps), [170])].length ∧
    ((write_epdfont [((65 : Int), 66)] [((⟨3, 5, 200, -1, 2, 1, 0, 65⟩ : GlyphProps), [170])]
        20 15 (-4) false).getD []).length
      = bitmap_offset [((65 : Int), 66)].length
          [((⟨3, 5, 200, -1, 2, 1, 0, 65⟩ : GlyphProps), [170])].length
        + ([((⟨3, 5, 200, -1, 2, 1, 0, 65⟩ : GlyphProps), [170])].map
            (fun gp => gp.1.data_length)).sum :=
  c2_serializer_layout [((65 : Int), 66)] [((⟨3, 5, 200, -1, 2, 1, 0, 65⟩ : GlyphProps), [170])]
    20 15 (-4) false _ (by decide) (by decide)

/-! ## Claim C1: the advanceX byte of a glyph table entry -/

theorem packU8_eq_some {v : Int} (h1 : 0 ≤ v) (h2 : v < 256) :
    packU8 v = some [v.toNat] := by
  unfold packU8
  rw [if_pos ⟨h1, h2⟩]

theorem packU8_eq_none {v : Int} (h : v < 0 ∨ 256 ≤ v) : packU8 v = none := by
  unfold packU8
  rw [if_neg (by omega)]

theorem packI16le_eq_some {v : Int} (h1 : -32768 ≤ v) (h2 : v < 32768) :
    packI16le v = some [(v % 65536).toNat % 256, (v % 65536).toNat / 256] := by
  unfold packI16le
  rw [if_pos ⟨h1, h2⟩]

theorem packU32le_eq_some {v : Int} (h1 : 0 ≤ v) (h2 : v < 4294967296) :
    packU32le v
      = some [v.toNat % 256, v.toNat / 256 % 256, v.toNat / 65536 % 256,
          v.toNat / 16777216 % 256] := by
  unfold packU32le
  rw [if_pos ⟨h1, h2⟩]

/-- Counterexample to claim C1 as stated: an adjusted advance of 300 (or -6)
does not wrap modulo 256; struct.pack raises struct.error, so the glyph entry
and the whole write fail instead of succeeding. -/
theorem c1_counterexample :
    glyphEntry ⟨3, 5, 300, -1, 2, 1, 0, 65⟩ = none ∧
    glyphEntry ⟨3, 5, -6, -1, 2, 1, 0, 65⟩ = none ∧
    write_epdfont [((65 : Int), 65)] [((⟨3, 5, 300, -1, 2, 1, 0, 65⟩ : GlyphProps), [170])]
      20 15 (-4) false = none := by
  refine ⟨by decide, by decide, by decide⟩

/-- Claim C1 amended: the advanceX field stored in the 16-byte glyph-table
entry equals the adjusted advance value when that value lies in 0..255;
an adjusted advance outside 0..255 makes struct.pack raise struct.error
(the entry, and hence the write, fails) instead of wrapping modulo 256. -/
theorem c1_advance_byte (g : GlyphProps) (hw : g.width < 256) (hh : g.height < 256)
    (hl1 : -32768 ≤ g.left) (hl2 : g.left < 32768)
    (ht1 : -32768 ≤ g.top) (ht2 : g.top < 32768)
    (hdl : g.data_length < 4294967296) (hdo : g.data_offset < 4294967296) :
    (0 ≤ g.advance_x ∧ g.advance_x < 256 →
      ∃ l, glyphEntry g = some l ∧ l.length = 16 ∧ l[2]? = some g.advance_x.toNat) ∧
    (g.advance_x < 0 ∨ 256 ≤ g.advance_x → glyphEntry g = none) := by
  constructor
  · rintro ⟨ha1, ha2⟩
    unfold glyphEntry
    rw [packU8_eq_some (by omega) (by omega), packU8_eq_some (by omega) (by omega),
      packU8_eq_some ha1 ha2, packU8_eq_some (by omega) (by omega),
      packI16le_eq_some hl1 hl2, packI16le_eq_some ht1 ht2,
      packU32le_eq_some (by omega) (by omega), packU32le_eq_some (by omega) (by omega)]
    simp only [Option.some_bind]
    refine ⟨_, rfl, ?_, ?_⟩
    · simp
    · simp
  · intro ha
    unfold glyphEntry
    rw [packU8_eq_some (by omega) (by omega), packU8_eq_some (by omega) (by omega),
      packU8_eq_none ha]
    simp only [Option.some_bind, Option.none_bind]

/-- Witness for the amended C1 at a concrete in-range glyph. -/
theorem c1_witness :
    ∃ l, glyphEntry ⟨3, 5, 200, -1, 2, 1, 0, 65⟩ = some l ∧ l.length = 16 ∧
      l[2]? = some (Int.toNat 200) :=
  (c1_advance_byte ⟨3, 5, 200, -1, 2, 1, 0, 65⟩ (by decide) (by decide) (by decide)
    (by decide) (by decide) (by decide) (by decide) (by decide)).1 ⟨by decide, by decide⟩

/-! ## Claims C4 and C5: data offsets of the generated glyph sequence -/

/-- Invariant of the glyph generation loop: the glyphs emitted after the
running total reached t have offsets that chain up from t by the packed
lengths, and every data_length equals the packed length. -/
def offsetChain : Nat → List (GlyphProps × List Nat) → Prop
  | _, [] => True
  | t, gp :: rest =>
    gp.1.data_offset = t ∧ gp.1.data_length = gp.2.length ∧
      offsetChain (t + gp.2.length) rest

theorem genGlyphs_offsetChain (render : Int → Option RenderedGlyph) (is_2bit : Bool)
    (width_scale : Rat) (letter_spacing baseline_offset : Int) :
    ∀ (cps : List Int) (total : Nat),
      offsetChain total
        (genGlyphs render is_2bit width_scale letter_spacing baseline_offset cps total) := by
  intro cps
  induction cps with
  | nil => intro total; trivial
  | cons cp rest ih =>
    intro total
    cases hr : render cp with
    | none =>
      simpa [genGlyphs, hr] using ih total
    | some g =>
      simp only [genGlyphs, hr]
      exact ⟨rfl, rfl, ih _⟩

theorem offsetChain_chain_eq :
    ∀ (gs : List (GlyphProps × List Nat)) (t : Nat), offsetChain t gs →
      List.Chain' (fun a b => b.1.data_offset = a.1.data_offset + a.1.data_length) gs := by
  intro gs
  induction gs with
  | nil => intro t _; exact List.chain'_nil
  | cons x rest ih =>
    intro t h
    obtain ⟨h1, h2, h3⟩ := h
    cases rest with
    | nil => exact List.chain'_singleton _
    | cons y rest2 =>
      have h4 := h3.1
      refine List.chain'_cons.2 ⟨?_, ih _ h3⟩
      rw [h4, h1, h2]

theorem offsetChain_head (gs : List (GlyphProps × List Nat)) (h : offsetChain 0 gs) :
    ∀ g, gs.head? = some g → g.1.data_offset = 0 := by
  cases gs with
  | nil => intro g hg; exact Option.noConfusion hg
  | cons x rest =>
    intro g hg
    have hx := Option.some.inj hg
    subst hx
    exact h.1

theorem offsetChain_chain_lt :
    ∀ (gs : List (GlyphProps × List Nat)) (t : Nat), offsetChain t gs →
      (∀ gp ∈ gs, 0 < gp.1.data_length) →
      List.Chain' (fun a b => a.1.data_offset < b.1.data_offset) gs := by
  intro gs
  induction gs with
  | nil => intro t _ _; exact List.chain'_nil
  | cons x rest ih =>
    intro t h hpos
    obtain ⟨h1, h2, h3⟩ := h
    cases rest with
    | nil => exact List.chain'_singleton _
    | cons y rest2 =>
      have h4 := h3.1
      refine List.chain'_cons.2
        ⟨?_, ih _ h3 (fun gp hgp => hpos gp (List.mem_cons_of_mem _ hgp))⟩
      have hx := hpos x (List.mem_cons_self _ _)
      rw [h4, h1]
      omega

/-- Claim C5: for every conversion run the first glyph's dataOffset is 0,
consecutive glyphs satisfy dataOffset[i] + dataLength[i] = dataOffset[i+1],
and consequently the dataOffset sequence is non-decreasing. -/
theorem c5_offsets_cumulative (render : Int → Option RenderedGlyph) (is_2bit : Bool)
    (width_scale : Rat) (letter_spacing baseline_offset : Int)
    (validated : List (Int × Int)) :
    (∀ g, (all_glyphs render is_2bit width_scale letter_spacing baseline_offset
        validated).head? = some g → g.1.data_offset = 0) ∧
    List.Chain' (fun a b => b.1.data_offset = a.1.data_offset + a.1.data_length)
      (all_glyphs render is_2bit width_scale letter_spacing baseline_offset validated) ∧
    List.Chain' (fun a b => a.1.data_offset ≤ b.1.data_offset)
      (all_glyphs render is_2bit width_scale letter_spacing baseline_offset validated) := by
  have hc := genGlyphs_offsetChain render is_2bit width_scale letter_spacing baseline_offset
    (validated.flatMap (fun p => intRange p.1 p.2)) 0
  refine ⟨offsetChain_head _ hc, offsetChain_chain_eq _ _ hc, ?_⟩
  refine (offsetChain_chain_eq _ _ hc).imp ?_
  intro a b hab
  rw [hab]
  exact Nat.le_add_right _ _

/-- A demo rasterization oracle covering code points 65 and 66 with a 1 x 1
fully opaque bitmap. -/
def demoRender : Int → Option RenderedGlyph :=
  fun cp => if 65 ≤ cp ∧ cp ≤ 66 then some ⟨1, 1, [255], 640, 0, 5⟩ else none

/-- A demo rasterization oracle covering code points 65 and 66 with zero-area
bitmaps (as FreeType produces for blank glyphs such as the space). -/
def demoRenderEmpty : Int → Option RenderedGlyph :=
  fun cp => if 65 ≤ cp ∧ cp ≤ 66 then some ⟨0, 0, [], 640, 0, 5⟩ else none

/-- Witness for C5 at a concrete conversion run. -/
theorem c5_witness :
    (∀ g, (all_glyphs demoRender false 1 0 0 [((65 : Int), 66)]).head? = some g →
      g.1.data_offset = 0) ∧
    List.Chain' (fun a b => b.1.data_offset = a.1.data_offset + a.1.data_length)
      (all_glyphs demoRender false 1 0 0 [((65 : Int), 66)]) ∧
    List.Chain' (fun a b => a.1.data_offset ≤ b.1.data_offset)
      (all_glyphs demoRender false 1 0 0 [((65 : Int), 66)]) :=
  c5_offsets_cumulative demoRender false 1 0 0 [((65 : Int), 66)]

/-- Counterexample to claim C4 as stated: a run whose glyphs all have empty
packed bitmaps (dataLength 0) yields dataOffsets [0, 0], which are neither
unique nor strictly increasing. -/
theorem c4_counterexample :
    ((all_glyphs demoRenderEmpty false 1 0 0 [((65 : Int), 66)]).map
      (fun gp => gp.1.data_offset)) = [0, 0] ∧
    ¬ ((all_glyphs demoRenderEmpty false 1 0 0 [((65 : Int), 66)]).map
      (fun gp => gp.1.data_offset)).Pairwise (fun a b => a < b) := by
  have hmap : ((all_glyphs demoRenderEmpty false 1 0 0 [((65 : Int), 66)]).map
      (fun gp => gp.1.data_offset)) = [0, 0] := by decide
  refine ⟨hmap, ?_⟩
  rw [hmap]
  intro hp
  have := (List.pairwise_cons.1 hp).1 0 (List.mem_singleton.2 rfl)
  exact absurd this (lt_irrefl 0)

/-- Claim C4 amended: across the glyph sequence of one conversion the
dataOffset values are unique and strictly monotonically increasing provided
every glyph's dataLength is nonzero (glyphs with empty packed bitmaps repeat
the previous offset). -/
theorem c4_offsets_strict_mono (render : Int → Option RenderedGlyph) (is_2bit : Bool)
    (width_scale : Rat) (letter_spacing baseline_offset : Int)
    (validated : List (Int × Int))
    (hpos : ∀ gp ∈ all_glyphs render is_2bit width_scale letter_spacing baseline_offset
      validated, 0 < gp.1.data_length) :
    ((all_glyphs render is_2bit width_scale letter_spacing baseline_offset
      validated).map (fun gp => gp.1.data_offset)).Pairwise (fun a b => a < b) := by
  have hc := genGlyphs_offsetChain render is_2bit width_scale letter_spacing baseline_offset
    (validated.flatMap (fun p => intRange p.1 p.2)) 0
  have hch := offsetChain_chain_lt _ _ hc hpos
  have hmap : List.Chain' (fun a b : Nat => a < b)
      ((all_glyphs render is_2bit width_scale letter_spacing baseline_offset
        validated).map (fun gp => gp.1.data_offset)) :=
    (List.chain'_map _).2 hch
  exact List.chain'_iff_pairwise.1 hmap

/-- Witness for the amended C4 at a concrete conversion run. -/
theorem c4_witness :
    ((all_glyphs demoRender false 1 0 0 [((65 : Int), 66)]).map
      (fun gp => gp.1.data_offset)).Pairwise (fun a b => a < b) :=
  c4_offsets_strict_mono demoRender false 1 0 0 [((65 : Int), 66)] (by decide)

/-! ## Claim C6: packed byte lengths -/

theorem bwStep_fst_length (width pitch : Nat) (p4 : List Nat) (st : List Nat × Nat)
    (p : Nat) :
    (bwStep width pitch p4 st p).1.length
      = st.1.length + (if p % 8 = 7 then 1 else 0) := by
  unfold bwStep
  by_cases hp : p % 8 = 7 <;> simp [hp]

theorem gbStep_fst_length (width pitch : Nat) (p4 : List Nat) (st : List Nat × Nat)
    (p : Nat) :
    (gbStep width pitch p4 st p).1.length
      = st.1.length + (if p % 4 = 3 then 1 else 0) := by
  unfold gbStep
  by_cases hp : p % 4 = 3 <;> simp [hp]

theorem bw_fold_length (width pitch : Nat) (p4 : List Nat) :
    ∀ (n : Nat) (st : List Nat × Nat),
      (((List.range n).foldl (bwStep width pitch p4) st).1).length
        = st.1.length + n / 8 := by
  intro n
  induction n with
  | zero => intro st; simp
  | succ k ih =>
    intro st
    rw [List.range_succ, List.foldl_append]
    simp only [List.foldl_cons, List.foldl_nil]
    rw [bwStep_fst_length, ih st]
    by_cases hk : k % 8 = 7
    · rw [if_pos hk]; omega
    · rw [if_neg hk]; omega

theorem gb_fold_length (width pitch : Nat) (p4 : List Nat) :
    ∀ (n : Nat) (st : List Nat × Nat),
      (((List.range n).foldl (gbStep width pitch p4) st).1).length
        = st.1.length + n / 4 := by
  intro n
  induction n with
  | zero => intro st; simp
  | succ k ih =>
    intro st
    rw [List.range_succ, List.foldl_append]
    simp only [List.foldl_cons, List.foldl_nil]
    rw [gbStep_fst_length, ih st]
    by_cases hk : k % 4 = 3
    · rw [if_pos hk]; omega
    · rw [if_neg hk]; omega

theorem pixelsbw_length (width rows : Nat) (p4 : List Nat) :
    (pixelsbw width rows p4).length = (width * rows + 7) / 8 := by
  simp only [pixelsbw]
  rw [Nat.mul_comm rows width]
  have h := bw_fold_length width (pitchOf width) p4 (width * rows) ([], 0)
  by_cases hz : (width * rows) % 8 = 0
  · rw [if_neg (fun hc => hc hz), h]
    simp only [List.length_nil]
    omega
  · rw [if_pos hz, List.length_append, h]
    simp only [List.length_nil, List.length_cons]
    omega

theorem pixels2b_length (width rows : Nat) (p4 : List Nat) :
    (pixels2b width rows p4).length = (width * rows + 3) / 4 := by
  simp only [pixels2b]
  rw [Nat.mul_comm rows width]
  have h := gb_fold_length width (pitchOf width) p4 (width * rows) ([], 0)
  by_cases hz : (width * rows) % 4 = 0
  · rw [if_neg (fun hc => hc hz), h]
    simp only [List.length_nil]
    omega
  · rw [if_pos hz, List.length_append, h]
    simp only [List.length_nil, List.length_cons]
    omega

theorem pixels_zero_area (width rows : Nat) (p4 : List Nat)
    (h : width = 0 ∨ rows = 0) :
    pixelsbw width rows p4 = [] ∧ pixels2b width rows p4 = [] := by
  have hz : rows * width = 0 := by rcases h with h | h <;> simp [h]
  have hz2 : width * rows = 0 := by rcases h with h | h <;> simp [h]
  constructor <;> simp [pixelsbw, pixels2b, hz, hz2]

/-- Claim C6: for every glyph of width w and height h and every 8-bit
coverage buffer, the packed output length is ceil(w h / 8) bytes in 1-bit
mode and ceil(w h / 4) bytes in 2-bit mode; a zero-area glyph produces an
empty packed sequence in both modes. -/
theorem c6_packed_lengths (width rows : Nat) (buffer : List Nat) :
    (pixelsbw width rows (pixels4g width buffer)).length = (width * rows + 7) / 8 ∧
    (pixels2b width rows (pixels4g width buffer)).length = (width * rows + 3) / 4 ∧
    (width = 0 ∨ rows = 0 →
      pixelsbw width rows (pixels4g width buffer) = [] ∧
      pixels2b width rows (pixels4g width buffer) = []) :=
  ⟨pixelsbw_length _ _ _, pixels2b_length _ _ _, pixels_zero_area _ _ _⟩

/-- Witness for C6: a 4 x 2 all-opaque bitmap packs to 1 byte in 1-bit mode,
and a zero-width glyph packs to the empty sequence. -/
theorem c6_witness :
    (pixelsbw 4 2 (pixels4g 4 (List.replicate 8 255))).length = (4 * 2 + 7) / 8 ∧
    (pixelsbw 0 3 (pixels4g 0 []) = [] ∧ pixels2b 0 3 (pixels4g 0 []) = []) :=
  ⟨(c6_packed_lengths 4 2 (List.replicate 8 255)).1,
   (c6_packed_lengths 0 3 []).2.2 (Or.inl rfl)⟩

/-! ## Claim C7: the adjusted advance formula -/

/-- Claim C7: the adjusted horizontal advance equals the raw 26.6 advance
floor-divided by 64, multiplied by widthScale and rounded toward zero,
plus letterSpacing; a whole-pixel raw advance of 10 (640 in 26.6 units) with
widthScale 1/2 and letterSpacing 2 yields 7; the rounding is truncation
toward zero, not floor (third conjunct: -10 x 1/4 truncates to -2). -/
theorem c7_adjusted_advance (raw : Int) (width_scale : Rat) (letter_spacing : Int) :
    adjusted_advance_x raw width_scale letter_spacing
      = pyTrunc (((Int.fdiv raw 64 : Int) : Rat) * width_scale) + letter_spacing ∧
    adjusted_advance_x 640 (1 / 2) 2 = 7 ∧
    adjusted_advance_x (-640) (1 / 4) 2 = 0 := by
  refine ⟨rfl, ?_, ?_⟩
  · have h1 : (norm_floor 640 : Int) = 10 := by decide
    show pyTrunc ((norm_floor 640 : Rat) * (1 / 2)) + 2 = 7
    rw [h1]
    have h2 : ((10 : Int) : Rat) * (1 / 2) = 5 := by norm_num
    rw [h2]
    unfold pyTrunc
    rw [if_pos (by norm_num)]
    norm_num
  · have h1 : (norm_floor (-640) : Int) = -10 := by decide
    show pyTrunc ((norm_floor (-640) : Rat) * (1 / 4)) + 2 = 0
    rw [h1]
    have h2 : ((-10 : Int) : Rat) * (1 / 4) = -(5 / 2) := by norm_num
    rw [h2]
    unfold pyTrunc
    rw [if_neg (by norm_num)]
    have h3 : ⌈(-(5 / 2) : Rat)⌉ = -2 := by
      rw [Int.ceil_eq_iff]
      constructor <;> norm_num
    rw [h3]
    norm_num

/-! ## Claims C8 and C9: sort-and-merge invariants and idempotence -/

theorem merge_intervals_mergedChain (l : List (Int × Int))
    (h : ∀ p ∈ l, p.1 ≤ p.2) :
    merge_intervals l = [] ∨ ∃ lo, MergedChain lo (merge_intervals l) := by
  rw [merge_intervals_eq]
  cases hs : List.insertionSort lexLe l with
  | nil => exact Or.inl rfl
  | cons x rest =>
    right
    refine ⟨x.1, ?_⟩
    have hperm := List.perm_insertionSort lexLe l
    have hmem : ∀ p ∈ x :: rest, p.1 ≤ p.2 := by
      intro p hp
      apply h
      have hin : p ∈ List.insertionSort lexLe l := by rw [hs]; exact hp
      exact hperm.mem_iff.1 hin
    simp only [mergeSorted]
    exact mergeRuns_mergedChain rest x (hmem x (List.mem_cons_self _ _))
      (fun p hp => hmem p (List.mem_cons_of_mem _ hp))

/-- Claim C9: for every candidate range list whose pairs satisfy
start ≤ end, the merged output is sorted ascending by start, its ranges are
pairwise non-overlapping with the next start exceeding the previous end + 1,
and every merged range satisfies start ≤ end. -/
theorem c9_merge_invariants (l : List (Int × Int)) (h : ∀ p ∈ l, p.1 ≤ p.2) :
    (∀ p ∈ merge_intervals l, p.1 ≤ p.2) ∧
    (merge_intervals l).Pairwise (fun a b => a.1 < b.1) ∧
    (merge_intervals l).Pairwise (fun a b => a.2 + 1 < b.1) := by
  rcases merge_intervals_mergedChain l h with hnil | ⟨lo, hmc⟩
  · rw [hnil]
    exact ⟨fun p hp => absurd hp (List.not_mem_nil p), List.Pairwise.nil, List.Pairwise.nil⟩
  · have hb := mergedChain_bounds hmc
    have hgap := mergedChain_pairwise_gap hmc
    refine ⟨fun p hp => (hb p hp).2, ?_, hgap⟩
    refine hgap.imp_of_mem ?_
    intro a b ha hb2 hab
    have h2 := (hb a ha).2
    omega

/-- Witness for C9 at a concrete unsorted, overlapping candidate list. -/
theorem c9_witness :
    (∀ p ∈ merge_intervals [((5 : Int), 10), (0, 3), (8, 20)], p.1 ≤ p.2) ∧
    (merge_intervals [((5 : Int), 10), (0, 3), (8, 20)]).Pairwise
      (fun a b => a.1 < b.1) ∧
    (merge_intervals [((5 : Int), 10), (0, 3), (8, 20)]).Pairwise
      (fun a b => a.2 + 1 < b.1) :=
  c9_merge_invariants [((5 : Int), 10), (0, 3), (8, 20)] (by decide)

/-- Claim C8: sort-and-merge is idempotent on candidate range lists (pairs
with start ≤ end): merging the merged output returns it unchanged. -/
theorem c8_merge_idempotent (l : List (Int × Int)) (h : ∀ p ∈ l, p.1 ≤ p.2) :
    merge_intervals (merge_intervals l) = merge_intervals l := by
  rcases merge_intervals_mergedChain l h with hnil | ⟨lo, hmc⟩
  · rw [hnil]
    rfl
  · have hsorted : List.Sorted lexLe (merge_intervals l) := mergedChain_sorted hmc
    have hgap : (merge_intervals l).Pairwise (fun a b => a.2 + 1 < b.1) :=
      mergedChain_pairwise_gap hmc
    rw [merge_intervals_eq (merge_intervals l), hsorted.insertionSort_eq]
    cases hc : merge_intervals l with
    | nil => rfl
    | cons y rest =>
      simp only [mergeSorted]
      apply mergeRuns_of_gap
      have hch := hgap.chain'
      rw [hc] at hch
      exact hch

/-- Witness for C8 at a concrete unsorted, overlapping candidate list. -/
theorem c8_witness :
    merge_intervals (merge_intervals [((5 : Int), 10), (0, 3), (8, 20)])
      = merge_intervals [((5 : Int), 10), (0, 3), (8, 20)] :=
  c8_merge_idempotent [((5 : Int), 10), (0, 3), (8, 20)] (by decide)

/-! ## Claim C3: interval validation -/

theorem validated_intervals_nil_of_unresolvable (resolvable : Int → Bool) :
    ∀ (merged : List (Int × Int)),
      (∀ p ∈ merged, ∀ c : Int, p.1 ≤ c → c ≤ p.2 → resolvable c = false) →
      validated_intervals resolvable merged = [] := by
  intro merged
  induction merged with
  | nil => intro _; rfl
  | cons q rest ih =>
    intro hall
    have h1 : validateScan resolvable q.1 q.2 (intRange q.1 q.2) = [] :=
      validateScan_all_unresolvable resolvable q.2 (intRange q.1 q.2) q.1 rfl
        (fun c hc1 hc2 => hall q (List.mem_cons_self _ _) c hc1 hc2)
    have h2 := ih (fun p hp c hc1 hc2 => hall p (List.mem_cons_of_mem _ hp) c hc1 hc2)
    rw [validated_intervals, List.flatMap_cons, h1, List.nil_append]
    rw [validated_intervals] at h2
    exact h2

/-- Claim C3: interval validation never fails: every code point inside every
emitted validated interval is resolvable by the oracle, every unresolvable
code point lies in no validated interval, and a merged input whose code
points are all unresolvable yields the empty (still valid) list. -/
theorem c3_validation_sound (resolvable : Int → Bool) (merged : List (Int × Int)) :
    (∀ p ∈ validated_intervals resolvable merged,
      ∀ c : Int, p.1 ≤ c → c ≤ p.2 → resolvable c = true) ∧
    (∀ c : Int, resolvable c = false →
      ∀ p ∈ validated_intervals resolvable merged, ¬ (p.1 ≤ c ∧ c ≤ p.2)) ∧
    ((∀ p ∈ merged, ∀ c : Int, p.1 ≤ c → c ≤ p.2 → resolvable c = false) →
      validated_intervals resolvable merged = []) := by
  have hsound : ∀ p ∈ validated_intervals resolvable merged,
      ∀ c : Int, p.1 ≤ c → c ≤ p.2 → resolvable c = true := by
    intro p hp c h1 h2
    rw [validated_intervals, List.mem_flatMap] at hp
    obtain ⟨q, hq, hpq⟩ := hp
    exact validateScan_sound resolvable q.2 (intRange q.1 q.2) q.1 q.1 rfl
      (fun d hd1 hd2 => absurd (lt_of_le_of_lt hd1 hd2) (lt_irrefl _)) p hpq c h1 h2
  refine ⟨hsound, ?_, validated_intervals_nil_of_unresolvable resolvable merged⟩
  rintro c hc p hp ⟨h1, h2⟩
  have ht := hsound p hp c h1 h2
  rw [ht] at hc
  exact Bool.noConfusion hc

/-- Witness for C3: an all-unresolvable oracle yields the empty validated
list, and with a partial oracle no emitted interval contains the
unresolvable point 2. -/
theorem c3_witness :
    validated_intervals (fun _ => false) [((0 : Int), 5)] = [] ∧
    (∀ p ∈ validated_intervals (fun c => decide (c ≠ 2)) [((0 : Int), 5)],
      ¬ (p.1 ≤ (2 : Int) ∧ (2 : Int) ≤ p.2)) :=
  ⟨(c3_validation_sound (fun _ => false) [((0 : Int), 5)]).2.2
      (fun p hp c hc1 hc2 => rfl),
   (c3_validation_sound (fun c => decide (c ≠ 2)) [((0 : Int), 5)]).2.1 2 (by decide)⟩

/-! ## Claim C10: the additional-intervals input -/

/-- Claim C10: a string that does not split on commas into exactly two parts
is silently ignored (the candidate list is returned unchanged, no error);
a string splitting into two parts that both parse with int(_, 0) appends the
parsed (start, end) pair to the candidate list (which is then merged). -/
theorem c10_additional_interval_parsing (acc : List (Int × Int)) (s : List Char) :
    ((s.splitOn ',').length ≠ 2 → parseAdditionalInterval acc s = some acc) ∧
    (∀ a b, s.splitOn ',' = [a, b] → ∀ x y : Int, pyInt0 a = some x → pyInt0 b = some y →
      parseAdditionalInterval acc s = some (acc ++ [(x, y)])) := by
  constructor
  · intro hne
    unfold parseAdditionalInterval
    cases hs : s.splitOn ',' with
    | nil => rfl
    | cons a rest =>
      cases rest with
      | nil => rfl
      | cons b rest2 =>
        cases rest2 with
        | nil => exact absurd (by rw [hs]; rfl) hne
        | cons c rest3 => rfl
  · intro a b hab x y hx hy
    unfold parseAdditionalInterval
    rw [hab]
    simp only [hx, hy]

/-- Witness for C10: a three-part string is ignored; the hex pair
0xAC00,0xD7AF is parsed and appended. -/
theorem c10_witness :
    parseAdditionalInterval [] ("1,2,3".data) = some [] ∧
    parseAdditionalInterval [((1 : Int), 2)] ("0xAC00,0xD7AF".data)
      = some ([((1 : Int), 2)] ++ [(44032, 55215)]) :=
  ⟨(c10_additional_interval_parsing [] ("1,2,3".data)).1 (by decide),
   (c10_additional_interval_parsing [((1 : Int), 2)] ("0xAC00,0xD7AF".data)).2
     ("0xAC00".data) ("0xD7AF".data) (by decide) 44032 55215 (by decide) (by decide)⟩
